import Mathlib

/-!
Shallow embedding of the Perentie debugger's inspection core: the
wraparound-aware address-range arithmetic and annotation summaries of
`view/memory.py` (`MemoryTableViewer`), and the image-loading pipeline of
`assembler_loader.py` (`AssemblerLoaderMixin`).

Machine integers are modelled as `Nat`/`Int` with explicit masking where the
source masks; Python strings are modelled as `List Char` with structural
reimplementations of the string primitives the source uses, so that every
definition evaluates inside the kernel.
-/

/-- `MemoryTableViewer.addr_in_range` from `view/memory.py`: test whether an
address is in the given range, taking address wrapping into account. The mask
`(1 << addr_width_bits) - 1` is kept literally. -/
def addr_in_range (addr_width_bits addr addr_start length : Nat) : Bool :=
  let addr_end := addr_start + length
  let addr_end_masked := addr_end &&& ((1 <<< addr_width_bits) - 1)
  let addr_wraps := addr_end ≠ addr_end_masked
  if addr_wraps then
    decide (addr < addr_end_masked ∨ addr_start ≤ addr)
  else
    decide (addr_start ≤ addr ∧ addr < addr_end)

/-- Membership of `addr` in the half-open interval
`[addr_start, addr_start + length)` under modulo-`2 ^ addr_width_bits`
wraparound, written from the specification's words (the interval is the set
of addresses `addr_start + k mod 2 ^ w` for `0 ≤ k < length`). -/
def inWrappedInterval (addr_width_bits addr addr_start length : Nat) : Prop :=
  ∃ k, k < length ∧ addr = (addr_start + k) % 2 ^ addr_width_bits

instance (w a s l : Nat) : Decidable (inWrappedInterval w a s l) := by
  unfold inWrappedInterval
  infer_instance

/-- The whitespace characters recognised by Python's `str.strip()` and
argument-less `str.split()`. -/
def isPySpace (c : Char) : Bool :=
  c = ' ' || c = '\t' || c = '\n' || c = '\r' || c = '\x0b' || c = '\x0c'

/-- Split a character list at every element satisfying `p`, keeping empty
pieces, as Python `str.split(sep)` does for a one-character separator. -/
def splitOnPred (p : Char → Bool) : List Char → List (List Char)
  | [] => [[]]
  | x :: xs =>
    match splitOnPred p xs with
    | [] => [[x]]
    | g :: gs => if p x then [] :: g :: gs else (x :: g) :: gs

/-- Python `line.split(c)` for a single-character separator. -/
def splitOnChar (c : Char) (cs : List Char) : List (List Char) :=
  splitOnPred (fun x => x = c) cs

/-- Python `str.strip()`: drop leading and trailing whitespace. -/
def pyStrip (cs : List Char) : List Char :=
  ((cs.dropWhile isPySpace).reverse.dropWhile isPySpace).reverse

/-- Python `str.split()` with no argument: the whitespace-separated tokens. -/
def pySplitWS (cs : List Char) : List (List Char) :=
  (splitOnPred isPySpace cs).filter (· ≠ [])

/-- The value of a single hexadecimal digit character. -/
def hexDigit (c : Char) : Option Nat :=
  if '0' ≤ c ∧ c ≤ '9' then some (c.toNat - '0'.toNat)
  else if 'a' ≤ c ∧ c ≤ 'f' then some (c.toNat - 'a'.toNat + 10)
  else if 'A' ≤ c ∧ c ≤ 'F' then some (c.toNat - 'A'.toNat + 10)
  else none

/-- Accumulate hexadecimal digits left to right, failing on a non-digit. -/
def hexNat (acc : Nat) : List Char → Option Nat
  | [] => some acc
  | c :: cs =>
    match hexDigit c with
    | none => none
    | some d => hexNat (16 * acc + d) cs

/-- Python `int(s, 16)` on an already-stripped string: an optional sign, an
optional `0x`/`0X`, then at least one hexadecimal digit; anything else raises
(`none`). -/
def pyIntHex (cs : List Char) : Option Int :=
  let sgncs : Int × List Char :=
    match cs with
    | '-' :: rest => (-1, rest)
    | '+' :: rest => (1, rest)
    | _ => (1, cs)
  let body : List Char :=
    match sgncs.2 with
    | '0' :: 'x' :: rest => rest
    | '0' :: 'X' :: rest => rest
    | _ => sgncs.2
  match body with
  | [] => none
  | _ => (hexNat 0 body).map fun n => sgncs.1 * n

/-- Python `dict` assignment `m[k] = v` on an association list: replace the
value at an existing key in place, otherwise append the binding. -/
def dictInsert {α β : Type} [DecidableEq α] : List (α × β) → α → β → List (α × β)
  | [], k, v => [(k, v)]
  | (k₀, v₀) :: rest, k, v =>
    if k₀ = k then (k, v) :: rest else (k₀, v₀) :: dictInsert rest k v

/-- Reading `m[k]` from an association-list dictionary. -/
def dictLookup {α β : Type} [DecidableEq α] : List (α × β) → α → Option β
  | [], _ => none
  | (k₀, v₀) :: rest, k => if k₀ = k then some v₀ else dictLookup rest k

/-- An observable effect of draining a loader generator: a
`write_memory(memory, width, addr, values)` call or a yielded
`(amount_done, total)` progress pair. -/
inductive Ev where
  | write (width : Nat) (addr : Int) (values : List Int)
  | progress (done total : Nat)
deriving DecidableEq

/-- The `write_memory` calls of a trace, in order. -/
def writesOf (evs : List Ev) : List (Nat × Int × List Int) :=
  evs.filterMap fun e =>
    match e with
    | .write w a v => some (w, a, v)
    | .progress _ _ => none

/-- The yielded progress pairs of a trace, in order. -/
def progressOf (evs : List Ev) : List (Nat × Nat) :=
  evs.filterMap fun e =>
    match e with
    | .progress d t => some (d, t)
    | .write _ _ _ => none

/-- One line of the parse loop of `AssemblerLoaderMixin._load_lst`:
`addr, val = map(str.strip, line.split(":"))` (which requires exactly two
segments), `val = val.split(";")[0].strip()`,
`addr = int(addr.split()[-1], 16)`, and `to_write[addr] = [int(val, 16)]`
unless the value is empty; `none` models an exception escaping the parse. -/
def lstParseLine (to_write : List (Int × List Int)) (line : List Char) :
    Option (List (Int × List Int)) :=
  match splitOnChar ':' line with
  | [a₀, v₀] =>
    let a := pyStrip a₀
    let v := pyStrip ((splitOnChar ';' (pyStrip v₀)).headD [])
    match (pySplitWS a).getLast? with
    | none => none
    | some tok =>
      match pyIntHex tok with
      | none => none
      | some addr =>
        if v ≠ [] then
          match pyIntHex v with
          | none => none
          | some value => some (dictInsert to_write addr [value])
        else
          some to_write
  | _ => none

/-- The parse phase of `_load_lst`: `data.strip().split("\n")` folded through
`lstParseLine` into the `to_write` dictionary. -/
def lstParse (data : List Char) : Option (List (Int × List Int)) :=
  (splitOnChar '\n' (pyStrip data)).foldlM lstParseLine []

/-- The write phase of `_load_lst`: for each dictionary entry, one
`write_memory(memory, 1, addr, values)` followed by one
`yield (num, length)`, with `num` counting from 0. -/
def lstTrace (length : Nat) : List (Int × List Int) → Nat → List Ev
  | [], _ => []
  | (addr, values) :: rest, num =>
    Ev.write 1 addr values :: Ev.progress num length :: lstTrace length rest (num + 1)

/-- `AssemblerLoaderMixin._load_lst`: the events produced by draining the
generator. A parse error is caught, logged and produces no events at all,
because parsing completes before the first write. -/
def load_lst (data : List Char) : List Ev :=
  match lstParse data with
  | none => []
  | some to_write => lstTrace to_write.length to_write 0

/-- A line the `.lst` parser raises on, in the terms of the specification: it
does not split on `:` into exactly two segments, or its address token is
missing or not valid hexadecimal, or its (non-empty) value is not valid
hexadecimal. -/
def lstLineMalformed (line : List Char) : Bool :=
  match splitOnChar ':' line with
  | [a₀, v₀] =>
    let a := pyStrip a₀
    let v := pyStrip ((splitOnChar ';' (pyStrip v₀)).headD [])
    (match (pySplitWS a).getLast? with
     | none => true
     | some tok => (pyIntHex tok).isNone)
    || (!v.isEmpty && (pyIntHex v).isNone)
  | _ => true

/-- An ELF section as surfaced by the external `elftools` library: its
`sh_type`, its `sh_addr`, and its `section.data()` bytes. -/
structure ElfSection where
  sh_type : String
  sh_addr : Nat
  data : List Nat
deriving DecidableEq

/-- The section-collection phase of `AssemblerLoaderMixin._load_elf`:
`data_sections[section["sh_addr"]] = section.data()` for every
`SHT_PROGBITS` section. -/
def elfDataSections (sections : List ElfSection) : List (Nat × List Nat) :=
  sections.foldl
    (fun m s =>
      if s.sh_type = "SHT_PROGBITS" then dictInsert m s.sh_addr s.data else m)
    []

/-- The per-section byte loop of `_load_elf`: for each byte, one single-byte
`write_memory(memory, 1, addr, [ord(byte)])`, then `addr` and `num` are
incremented and `(num, length)` is yielded. -/
def elfSectionTrace (addr : Nat) (values : List Nat) (num total : Nat) : List Ev :=
  match values with
  | [] => []
  | b :: bs =>
    Ev.write 1 (addr : Int) [(b : Int)] :: Ev.progress (num + 1) total ::
      elfSectionTrace (addr + 1) bs (num + 1) total

/-- The outer write loop of `_load_elf` over the collected sections, threading
the running `num` byte counter. -/
def elfWriteTrace (total : Nat) : List (Nat × List Nat) → Nat → List Ev
  | [], _ => []
  | (addr, values) :: rest, num =>
    elfSectionTrace addr values num total ++ elfWriteTrace total rest (num + values.length)

/-- `AssemblerLoaderMixin._load_elf`, from the point where `elftools` has
produced the sections of the image: `length` is the total byte count over the
collected sections and the bytes are written one at a time. -/
def load_elf (sections : List ElfSection) : List Ev :=
  let data_sections := elfDataSections sections
  let total := (data_sections.map fun p => p.2.length).sum
  elfWriteTrace total data_sections 0

/-- A synthetic image with two loadable sections of sizes 4 and 6 bytes and
one non-loadable section, as in the specification's byte-count property. -/
def elfExampleSections : List ElfSection :=
  [{ sh_type := "SHT_PROGBITS", sh_addr := 0x100, data := [1, 2, 3, 4] },
   { sh_type := "SHT_PROGBITS", sh_addr := 0x200, data := [5, 6, 7, 8, 9, 10] },
   { sh_type := "SHT_SYMTAB", sh_addr := 0x300, data := [99] }]

/-- The loader-related state of `AssemblerLoaderMixin`: `image_source` maps
addresses to `(width_words, value, source_lines)` and `image_symbols` maps
symbol names to values. -/
structure LoaderState where
  image_source : List (Int × (Nat × Int × List String))
  image_symbols : List (String × Int)
deriving DecidableEq

/-- The outcome of the `try` block of `load_image_`: a loader generator was
returned, or the raised-and-logged exception. -/
inductive LoadOutcome where
  | ok
  | unsupported (ext : String)
  | ioError
deriving DecidableEq

/-- The extension part of Python's `os.path.splitext`: the suffix of the last
path component starting at its final dot, provided a non-dot character
precedes that dot within the component. -/
def pySplitextExt (p : String) : String :=
  let base := (splitOnChar '/' p.toList).getLastD []
  match base.reverse.findIdx? (fun c => c = '.') with
  | none => ""
  | some j =>
    let i := base.length - 1 - j
    if (base.take i).any (fun c => c ≠ '.') then String.mk (base.drop i) else ""

/-- Python `str.lower()` (ASCII). -/
def pyLower (s : String) : String :=
  String.mk (s.toList.map Char.toLower)

/-- `AssemblerLoaderMixin.load_image_`, with the file system and the external
`elftools` front end passed explicitly. The loader is selected by the
lowercased file extension; an unknown extension raises before anything else
happens; only then are `image_source` and `image_symbols` cleared, the file
read, and the selected generator returned (here: drained into its event
trace). -/
def load_image_ (st : LoaderState) (image_filename : String)
    (readFile : String → Option (List Char))
    (elfParse : List Char → Option (List ElfSection)) :
    LoaderState × List Ev × LoadOutcome :=
  let ext := pyLower (pySplitextExt image_filename)
  if ext ∈ [".lst", ".elf"] then
    let st₁ : LoaderState := { st with image_source := [], image_symbols := [] }
    match readFile image_filename with
    | none => (st₁, [], .ioError)
    | some data =>
      if ext = ".lst" then
        (st₁, load_lst data, .ok)
      else
        (st₁,
          match elfParse data with
          | none => []
          | some sections => load_elf sections,
          .ok)
  else
    (st, [], .unsupported ext)

/-- A sample starting state whose maps are non-empty, for exercising the
clearing behaviour of `load_image_`. -/
def sampleLoaderState : LoaderState :=
  { image_source := [(0, (1, 171, ["MOV R0, R1"]))]
    image_symbols := [("start", 0)] }

/-- Modelled from the spec: an annotation (the `Annotation` class of the
`_annotation` module, which is not part of the sources) is a typed fact
located at an address, carrying an integer priority and renderable summary
data; `MemoryTableViewer.get_annotation` consumes it through its `addr`
attribute and its `get_priority`, `get_tooltip`, `get_pointer_pixbuf` and
`get_colour` accessors, modelled as fields. -/
structure Annotation where
  addr : Nat
  priority : Nat
  tooltip : String
  icon : String
  colour : String
deriving DecidableEq

/-- `MemoryTableViewer.MAX_TOOLTIP_ENTRIES`. -/
def MAX_TOOLTIP_ENTRIES : Nat := 20

/-- The default pointer pixbuf used when no annotation matches. -/
def POINTER_DEFAULT : String := "POINTER_DEFAULT"

/-- The sort key `(a.addr << 8) | (0xFF - a.get_priority())` used by
`get_annotation` to order tooltip entries. -/
def sortKey (a : Annotation) : Nat :=
  (a.addr <<< 8) ||| (0xFF - a.priority)

/-- The matching pass of `get_annotation`: every annotation stored at an
address that `addr_in_range` accepts, in dictionary order. -/
def matchingAnnotations (w : Nat) (annotations : List (Nat × List Annotation))
    (addr_start length : Nat) : List Annotation :=
  (annotations.filter fun p => addr_in_range w p.1 addr_start length).flatMap
    fun p => p.2

/-- Python `max(xs, key=f)`: the first element with maximal key. -/
def pyMaxBy (f : Annotation → Nat) : List Annotation → Option Annotation
  | [] => none
  | x :: xs => some (xs.foldl (fun best y => if f y > f best then y else best) x)

/-- The sorted and truncated tooltip list of `get_annotation`:
`sorted(all_annotations, key=...)[:MAX_TOOLTIP_ENTRIES]` (Python's `sorted`
is a stable ascending sort by the key). -/
def tooltipEntries (all_annotations : List Annotation) : List Annotation :=
  (List.insertionSort (fun a b => sortKey a ≤ sortKey b) all_annotations).take
    MAX_TOOLTIP_ENTRIES

/-- `MemoryTableViewer.get_annotation`: the `(icon, colour, tooltip)` triple
for the queried address range. -/
def get_annotation (w : Nat) (annotations : List (Nat × List Annotation))
    (addr_start length : Nat) : String × String × String :=
  let all_annotations := matchingAnnotations w annotations addr_start length
  match pyMaxBy (fun a => a.priority) all_annotations with
  | none => (POINTER_DEFAULT, "#000000", "")
  | some max_ann =>
    let tooltip :=
      String.intercalate "\n" ((tooltipEntries all_annotations).map fun a => a.tooltip)
    let hidden_entries := all_annotations.length - MAX_TOOLTIP_ENTRIES
    let tooltip :=
      if hidden_entries > 0 then
        tooltip ++ "\n<i>+ " ++ toString hidden_entries ++ " other" ++
          (if hidden_entries = 1 then "" else "s") ++ " not shown</i>"
      else tooltip
    (max_ann.icon, max_ann.colour, tooltip)

/-- Twenty-five annotations at a single address with priorities 0 to 24, for
exercising the truncation of `get_annotation`. -/
def annotationExample : List (Nat × List Annotation) :=
  [(10, (List.range 25).map fun i =>
    { addr := 10, priority := i, tooltip := toString i,
      icon := "I", colour := "#FF0000" })]

instance : IsTotal Annotation (fun a b => sortKey a ≤ sortKey b) :=
  ⟨fun a b => Nat.le_total (sortKey a) (sortKey b)⟩

instance : IsTrans Annotation (fun a b => sortKey a ≤ sortKey b) :=
  ⟨fun _ _ _ h₁ h₂ => Nat.le_trans h₁ h₂⟩

noncomputable section

/-- `MemoryTableViewer.MAX_SCROLL_SPEED`. -/
def MAX_SCROLL_SPEED : ℝ := 16

/-- `MemoryTableViewer.SCROLL_ACCELERATION_FACTOR`. -/
def SCROLL_ACCELERATION_FACTOR : ℝ := 0.8

/-- The deflection-to-speed computation of `_on_scroll_tick`: the sign of the
scrollbar reading `v`, times `abs(v) ** SCROLL_ACCELERATION_FACTOR`, times
`MAX_SCROLL_SPEED`; the source's floating point is idealised as reals. -/
def tickValue (v : ℝ) : ℝ :=
  (if 0 ≤ v then (1 : ℝ) else -1) * |v| ^ SCROLL_ACCELERATION_FACTOR *
    MAX_SCROLL_SPEED

/-- The per-tick jump `delta = 2 ** abs(value) / 10.0` of `_on_scroll_tick`. -/
def tickDelta (v : ℝ) : ℝ :=
  (2 : ℝ) ^ |tickValue v| / 10

/-- One iteration of `_on_scroll_tick` acting on the accumulated `distance`:
the delta is added for a positive speed, subtracted for a negative one, and
ignored for a centred scrollbar. -/
def scrollTick (distance v : ℝ) : ℝ :=
  if 0 < tickValue v then distance + tickDelta v
  else if tickValue v < 0 then distance - tickDelta v
  else distance

/-- The accumulated `distance` after a sequence of tick readings, starting
from the fresh drag state set up by `_on_vscrollbar_start` (`distance = 0`). -/
def dragDistance (vs : List ℝ) : ℝ :=
  vs.foldl scrollTick 0

/-- `rounded_distance`: `int(ceil(abs(distance)))` with the sign of
`distance` reapplied — rounding to the integer of largest magnitude. -/
def roundedDistance (d : ℝ) : ℤ :=
  (if 0 ≤ d then 1 else -1) * ⌈|d|⌉

/-- The address displayed after `_on_vscrollbar_end`: the release performs one
final `_on_scroll_tick` with the current reading `v` and the viewer shows
`addr_before_scroll + rounded_distance`. -/
def releaseAddr (addr_before_scroll : ℤ) (vs : List ℝ) (v : ℝ) : ℤ :=
  addr_before_scroll + roundedDistance (scrollTick (dragDistance vs) v)

end

/-- The mask used by `addr_in_range` is reduction modulo `2 ^ w`. -/
theorem mask_eq_mod (x w : Nat) : x &&& ((1 <<< w) - 1) = x % 2 ^ w := by
  rw [Nat.one_shiftLeft]
  exact Nat.and_pow_two_sub_one_eq_mod x w

/-- Claim C1 (amended): for addresses reduced modulo `2 ^ addr_width_bits` and
ranges of length at most `2 ^ addr_width_bits`, `addr_in_range` decides
membership in the wrapped half-open interval `[start, start + length)`; in
particular, for `addr_width_bits = 8`, start 250 and length 10, address 2 is
in range, address 5 is not, and address 252 is. -/
theorem addr_in_range_iff_inWrappedInterval :
    (∀ w a s l, a < 2 ^ w → s < 2 ^ w → l ≤ 2 ^ w →
      (addr_in_range w a s l = true ↔ inWrappedInterval w a s l)) ∧
    addr_in_range 8 2 250 10 = true ∧
    addr_in_range 8 5 250 10 = false ∧
    addr_in_range 8 252 250 10 = true := by
  refine ⟨?_, by decide, by decide, by decide⟩
  intro w a s l ha hs hl
  have hpos : 0 < 2 ^ w := pow_pos (by norm_num) w
  simp only [addr_in_range, inWrappedInterval, mask_eq_mod]
  by_cases hw : s + l < 2 ^ w
  · rw [Nat.mod_eq_of_lt hw]
    rw [if_neg (by simp)]
    simp only [decide_eq_true_eq]
    constructor
    · rintro ⟨hsa, hal⟩
      exact ⟨a - s, by omega, by rw [Nat.mod_eq_of_lt (by omega)]; omega⟩
    · rintro ⟨k, hk, rfl⟩
      rw [Nat.mod_eq_of_lt (by omega)]
      omega
  · have hmod : (s + l) % 2 ^ w = s + l - 2 ^ w := by
      rw [Nat.mod_eq_sub_mod (by omega), Nat.mod_eq_of_lt (by omega)]
    rw [hmod, if_pos (by omega)]
    simp only [decide_eq_true_eq]
    constructor
    · rintro (hlt | hge)
      · refine ⟨a + 2 ^ w - s, by omega, ?_⟩
        have h1 : s + (a + 2 ^ w - s) = a + 2 ^ w := by omega
        rw [h1, Nat.add_mod_right, Nat.mod_eq_of_lt ha]
      · refine ⟨a - s, by omega, ?_⟩
        have h1 : s + (a - s) = a := by omega
        rw [h1, Nat.mod_eq_of_lt ha]
    · rintro ⟨k, hk, rfl⟩
      by_cases hsk : s + k < 2 ^ w
      · rw [Nat.mod_eq_of_lt hsk]
        omega
      · have h1 : (s + k) % 2 ^ w = s + k - 2 ^ w := by
          rw [Nat.mod_eq_sub_mod (by omega), Nat.mod_eq_of_lt (by omega)]
        rw [h1]
        omega

theorem addr_in_range_iff_inWrappedInterval_witness :
    ((addr_in_range 8 2 250 10 = true ↔ inWrappedInterval 8 2 250 10) ∧
      inWrappedInterval 8 2 250 10) ∧
    addr_in_range 8 2 250 10 = true :=
  ⟨⟨addr_in_range_iff_inWrappedInterval.1 8 2 250 10 (by decide) (by decide)
      (by decide), by decide⟩,
    addr_in_range_iff_inWrappedInterval.2.1⟩

/-- Claim C1 counterexample: for `addr_width_bits = 8`, start 255 and length
257 the wrapped interval covers the whole address space (so address 0 lies in
it), yet `addr_in_range` rejects address 0: the stated equivalence fails once
the length exceeds `2 ^ addr_width_bits`. -/
theorem addr_in_range_iff_inWrappedInterval_counterexample :
    inWrappedInterval 8 0 255 257 ∧ addr_in_range 8 0 255 257 = false := by
  constructor
  · exact ⟨1, by norm_num⟩
  · decide

/-- Claim C5 (amended): for `range_start < 2 ^ w`, the range start is
contained exactly when the length is positive, and — provided
`length < 2 ^ w` — the address `(range_start + length) mod 2 ^ w` is never
contained (the upper bound is exclusive). -/
theorem addr_in_range_boundary :
    ∀ w s l, s < 2 ^ w →
      ((addr_in_range w s s l = true ↔ 0 < l) ∧
        (l < 2 ^ w → addr_in_range w ((s + l) % 2 ^ w) s l = false)) := by
  intro w s l hs
  have hpos : 0 < 2 ^ w := pow_pos (by norm_num) w
  constructor
  · simp only [addr_in_range, mask_eq_mod]
    by_cases hw : s + l = (s + l) % 2 ^ w
    · rw [if_neg (not_ne_iff.mpr hw)]
      simp only [decide_eq_true_eq]
      have hsl : s + l < 2 ^ w := hw ▸ Nat.mod_lt _ hpos
      omega
    · rw [if_pos hw]
      simp only [decide_eq_true_eq]
      have hge : 2 ^ w ≤ s + l := by
        by_contra hc
        push_neg at hc
        exact hw (Nat.mod_eq_of_lt hc).symm
      have hl2 : 0 < l := by
        rcases Nat.eq_zero_or_pos l with h | h
        · subst h
          simp only [Nat.add_zero] at hge
          exact absurd hge (not_le.mpr hs)
        · exact h
      exact ⟨fun _ => hl2, fun _ => Or.inr le_rfl⟩
  · intro hl
    simp only [addr_in_range, mask_eq_mod]
    by_cases hw : s + l < 2 ^ w
    · rw [Nat.mod_eq_of_lt hw, if_neg (by simp)]
      simp only [decide_eq_false_iff_not]
      omega
    · have hwle : 2 ^ w ≤ s + l := le_of_not_lt hw
      have hmod : (s + l) % 2 ^ w = s + l - 2 ^ w := by
        rw [Nat.mod_eq_sub_mod hwle, Nat.mod_eq_of_lt (by omega)]
      have h0 : 0 < s + l := lt_of_lt_of_le hpos hwle
      rw [hmod, if_pos (Nat.sub_lt h0 hpos).ne']
      simp only [decide_eq_false_iff_not]
      have hlt : s + l - 2 ^ w < s := by
        refine (Nat.sub_lt_iff_lt_add hwle).mpr ?_
        calc s + l < s + 2 ^ w := Nat.add_lt_add_left hl s
        _ = 2 ^ w + s := Nat.add_comm s (2 ^ w)
      rintro (h | h)
      · exact lt_irrefl _ h
      · exact absurd h (not_le.mpr hlt)

theorem addr_in_range_boundary_witness :
    ((addr_in_range 8 250 250 10 = true ↔ 0 < 10) ∧
      (10 < 2 ^ 8 → addr_in_range 8 ((250 + 10) % 2 ^ 8) 250 10 = false)) ∧
    addr_in_range 8 ((250 + 10) % 2 ^ 8) 250 10 = false := by
  refine ⟨addr_in_range_boundary 8 250 10 (by decide), ?_⟩
  exact (addr_in_range_boundary 8 250 10 (by decide)).2 (by decide)

/-- Claim C5 counterexample: for a length spanning the entire address space
(`l = 2 ^ w`, here `w = 8`, start 0), the code reports the masked end address
`(0 + 256) mod 256 = 0` as contained, so the exclusive-upper-bound statement
is not "always" true. -/
theorem addr_in_range_boundary_counterexample :
    addr_in_range 8 ((0 + 256) % 2 ^ 8) 0 256 = true := by decide

theorem dictLookup_dictInsert_self {α β : Type} [DecidableEq α] :
    ∀ (m : List (α × β)) (k : α) (v : β),
      dictLookup (dictInsert m k v) k = some v := by
  intro m
  induction m with
  | nil => intro k v; simp [dictInsert, dictLookup]
  | cons q rest ih =>
    intro k v
    obtain ⟨k₀, v₀⟩ := q
    by_cases h : k₀ = k
    · simp [dictInsert, h, dictLookup]
    · simp [dictInsert, h, dictLookup, ih]

theorem dictLookup_dictInsert_other {α β : Type} [DecidableEq α] :
    ∀ (m : List (α × β)) (k kx : α) (v : β), kx ≠ k →
      dictLookup (dictInsert m k v) kx = dictLookup m kx := by
  intro m
  induction m with
  | nil => intro k kx v hne; simp [dictInsert, dictLookup, Ne.symm hne]
  | cons q rest ih =>
    intro k kx v hne
    obtain ⟨k₀, v₀⟩ := q
    by_cases h : k₀ = k
    · subst h
      simp [dictInsert, dictLookup, Ne.symm hne]
    · simp [dictInsert, h, dictLookup, ih _ _ _ hne]

theorem dictInsert_preserves {α β : Type} [DecidableEq α]
    (P : α × β → Prop) :
    ∀ (m : List (α × β)) (k : α) (v : β),
      (∀ p ∈ m, P p) → P (k, v) → ∀ p ∈ dictInsert m k v, P p := by
  intro m
  induction m with
  | nil =>
    intro k v _ hkv p hp
    simp only [dictInsert, List.mem_singleton] at hp
    exact hp ▸ hkv
  | cons q rest ih =>
    intro k v hall hkv p hp
    obtain ⟨k₀, v₀⟩ := q
    by_cases h : k₀ = k
    · simp only [dictInsert, if_pos h, List.mem_cons] at hp
      rcases hp with rfl | hp
      · exact hkv
      · exact hall p (List.mem_cons_of_mem _ hp)
    · simp only [dictInsert, if_neg h, List.mem_cons] at hp
      rcases hp with rfl | hp
      · exact hall _ (List.mem_cons_self _ _)
      · exact ih k v (fun r hr => hall r (List.mem_cons_of_mem _ hr)) hkv p hp

theorem dictInsert_keys {α β : Type} [DecidableEq α] :
    ∀ (m : List (α × β)) (k : α) (v : β),
      (dictInsert m k v).map Prod.fst =
        if k ∈ m.map Prod.fst then m.map Prod.fst
        else m.map Prod.fst ++ [k] := by
  intro m
  induction m with
  | nil => intro k v; simp [dictInsert]
  | cons q rest ih =>
    intro k v
    obtain ⟨k₀, v₀⟩ := q
    by_cases h : k₀ = k
    · subst h
      simp [dictInsert]
    · by_cases hk : k ∈ rest.map Prod.fst
      · simp [dictInsert, h, ih, hk, Ne.symm h]
      · simp [dictInsert, h, ih, hk, Ne.symm h]

theorem dictInsert_keys_nodup {α β : Type} [DecidableEq α]
    (m : List (α × β)) (k : α) (v : β) (h : (m.map Prod.fst).Nodup) :
    ((dictInsert m k v).map Prod.fst).Nodup := by
  rw [dictInsert_keys]
  by_cases hk : k ∈ m.map Prod.fst
  · rwa [if_pos hk]
  · rw [if_neg hk]
    exact List.nodup_append.mpr
      ⟨h, List.nodup_singleton k,
        fun a ha hb => hk ((List.mem_singleton.mp hb) ▸ ha)⟩

theorem dictInsert_eq_append {α β : Type} [DecidableEq α] :
    ∀ (m : List (α × β)) (k : α) (v : β), k ∉ m.map Prod.fst →
      dictInsert m k v = m ++ [(k, v)] := by
  intro m
  induction m with
  | nil => intro k v _; rfl
  | cons q rest ih =>
    intro k v hk
    obtain ⟨k₀, v₀⟩ := q
    simp only [List.map_cons, List.mem_cons] at hk
    push_neg at hk
    simp only [dictInsert]
    rw [if_neg (fun h => hk.1 h.symm), ih k v hk.2]
    rfl

theorem lstParseLine_some :
    ∀ (m₀ m₁ : List (Int × List Int)) (line : List Char),
      lstParseLine m₀ line = some m₁ →
      m₁ = m₀ ∨ ∃ k v, m₁ = dictInsert m₀ k [v] := by
  intro m₀ m₁ line h
  simp only [lstParseLine] at h
  split at h
  · split at h
    · exact absurd h (by simp)
    · split at h
      · exact absurd h (by simp)
      · split at h
        · split at h
          · exact absurd h (by simp)
          · exact Or.inr ⟨_, _, (Option.some.injEq _ _ ▸ h).symm⟩
        · exact Or.inl (Option.some.inj h).symm
  · exact absurd h (by simp)

theorem lstParse_fold_inv (P : List (Int × List Int) → Prop)
    (hstep : ∀ m₀ line m₁, P m₀ → lstParseLine m₀ line = some m₁ → P m₁) :
    ∀ (lines : List (List Char)) (m₀ m : List (Int × List Int)),
      P m₀ → lines.foldlM lstParseLine m₀ = some m → P m := by
  intro lines
  induction lines with
  | nil =>
    intro m₀ m h0 h
    simp only [List.foldlM_nil, pure, Option.some.injEq] at h
    exact h ▸ h0
  | cons l ls ih =>
    intro m₀ m h0 h
    rw [List.foldlM_cons] at h
    cases hline : lstParseLine m₀ l with
    | none => rw [hline] at h; exact absurd h (by simp [Bind.bind])
    | some m₁ =>
      rw [hline] at h
      simp only [Bind.bind, Option.bind] at h
      exact ih m₁ m (hstep m₀ l m₁ h0 hline) h

theorem lstParse_values_singleton (data : List Char)
    (m : List (Int × List Int)) (h : lstParse data = some m) :
    ∀ p ∈ m, ∃ v, p.2 = [v] := by
  refine lstParse_fold_inv (fun m => ∀ p ∈ m, ∃ v, p.2 = [v])
    ?_ _ [] m (by simp) h
  intro m₀ line m₁ h0 hline
  rcases lstParseLine_some m₀ m₁ line hline with rfl | ⟨k, v, rfl⟩
  · exact h0
  · exact dictInsert_preserves _ m₀ k [v] h0 ⟨v, rfl⟩

theorem lstParse_keys_nodup (data : List Char)
    (m : List (Int × List Int)) (h : lstParse data = some m) :
    (m.map Prod.fst).Nodup := by
  refine lstParse_fold_inv (fun m => (m.map Prod.fst).Nodup)
    ?_ _ [] m (by simp) h
  intro m₀ line m₁ h0 hline
  rcases lstParseLine_some m₀ m₁ line hline with rfl | ⟨k, v, rfl⟩
  · exact h0
  · exact dictInsert_keys_nodup m₀ k [v] h0

theorem writesOf_lstTrace :
    ∀ (m : List (Int × List Int)) (L n : Nat),
      writesOf (lstTrace L m n) = m.map fun p => ((1 : Nat), p.1, p.2) := by
  intro m
  induction m with
  | nil => intro L n; rfl
  | cons p rest ih =>
    intro L n
    obtain ⟨a, vs⟩ := p
    simp only [lstTrace, writesOf, List.filterMap_cons, List.map_cons]
    exact congrArg _ (ih L (n + 1))

theorem progressOf_lstTrace :
    ∀ (m : List (Int × List Int)) (L n : Nat),
      progressOf (lstTrace L m n) =
        (List.range' n m.length).map fun i => (i, L) := by
  intro m
  induction m with
  | nil => intro L n; rfl
  | cons p rest ih =>
    intro L n
    obtain ⟨a, vs⟩ := p
    simp only [lstTrace, progressOf, List.filterMap_cons, List.length_cons,
      List.range'_succ, List.map_cons]
    exact congrArg _ (ih L (n + 1))

theorem lstTrace_flatten :
    ∀ (m : List (Int × List Int)) (L n : Nat),
      lstTrace L m n =
        ((List.enumFrom n m).map fun p =>
          [Ev.write 1 p.2.1 p.2.2, Ev.progress p.1 L]).flatten := by
  intro m
  induction m with
  | nil => intro L n; rfl
  | cons p rest ih =>
    intro L n
    obtain ⟨a, vs⟩ := p
    simp only [lstTrace, List.enumFrom_cons, List.map_cons, List.flatten_cons]
    simp only [List.cons_append, List.nil_append, List.cons.injEq, true_and]
    exact ih L (n + 1)

/-- Claim C2: the listing loader splits each line on `:` (trimming
whitespace), takes the last whitespace token of the left segment as the
base-16 address and the text before any `;` (trimmed) as the value, skips
empty values, lets the last occurrence of an address win, writes exactly one
word per surviving address, and reports the number of distinct destination
addresses as the progress total; the specification's example input produces
exactly the two writes `0x4000 ↦ [0xAB]` and `0x4001 ↦ [0xCD]` and no write
for `0x4002`. -/
theorem load_lst_parse_and_write :
    load_lst ("4000 : 00AB ; comment\n4001 : 00CD\n4002 :  \n".toList) =
      [Ev.write 1 0x4000 [0xAB], Ev.progress 0 2,
       Ev.write 1 0x4001 [0xCD], Ev.progress 1 2] ∧
    lstParse ("4000 : 00AB ; comment\n4001 : 00CD\n4002 :  \n".toList) =
      some [(0x4000, [0xAB]), (0x4001, [0xCD])] ∧
    (∀ (m : List (Int × List Int)) (k : Int) (v : List Int),
      dictLookup (dictInsert m k v) k = some v ∧
      ∀ kx, kx ≠ k → dictLookup (dictInsert m k v) kx = dictLookup m kx) ∧
    (∀ (data : List Char) (m : List (Int × List Int)), lstParse data = some m →
      (∀ p ∈ m, ∃ v, p.2 = [v]) ∧
      (m.map Prod.fst).Nodup ∧
      writesOf (load_lst data) = (m.map fun p => ((1 : Nat), p.1, p.2)) ∧
      progressOf (load_lst data) =
        ((List.range m.length).map fun i => (i, m.length))) := by
  refine ⟨by decide, by decide, ?_, ?_⟩
  · intro m k v
    exact ⟨dictLookup_dictInsert_self m k v,
      fun kx hkx => dictLookup_dictInsert_other m k kx v hkx⟩
  · intro data m h
    refine ⟨lstParse_values_singleton data m h, lstParse_keys_nodup data m h,
      ?_, ?_⟩
    · simp only [load_lst, h]
      exact writesOf_lstTrace m m.length 0
    · simp only [load_lst, h]
      rw [progressOf_lstTrace m m.length 0, List.range_eq_range']

theorem load_lst_parse_and_write_witness :
    ((∀ p ∈ [((0x4000 : Int), [(0xAB : Int)]), (0x4001, [0xCD])], ∃ v, p.2 = [v]) ∧
      (([((0x4000 : Int), [(0xAB : Int)]), (0x4001, [0xCD])].map Prod.fst)).Nodup ∧
      writesOf (load_lst ("4000 : 00AB ; comment\n4001 : 00CD\n4002 :  \n".toList)) =
        ([((0x4000 : Int), [(0xAB : Int)]), (0x4001, [0xCD])].map fun p => ((1 : Nat), p.1, p.2)) ∧
      progressOf (load_lst ("4000 : 00AB ; comment\n4001 : 00CD\n4002 :  \n".toList)) =
        ((List.range 2).map fun i => (i, 2))) ∧
    dictLookup (dictInsert ([] : List (Int × List Int)) 5 [7]) 5 = some [7] :=
  ⟨load_lst_parse_and_write.2.2.2
      ("4000 : 00AB ; comment\n4001 : 00CD\n4002 :  \n".toList)
      [(0x4000, [0xAB]), (0x4001, [0xCD])] (by decide),
    (load_lst_parse_and_write.2.2.1 [] 5 [7]).1⟩

theorem lstParseLine_none_of_malformed :
    ∀ (line : List Char), lstLineMalformed line = true →
      ∀ (m : List (Int × List Int)), lstParseLine m line = none := by
  intro line hmal m
  rcases hsp : splitOnChar ':' line with _ | ⟨a₀, _ | ⟨v₀, _ | ⟨w₀, ws⟩⟩⟩
  · simp [lstParseLine, hsp]
  · simp [lstParseLine, hsp]
  · simp only [lstLineMalformed, hsp] at hmal
    simp only [lstParseLine, hsp]
    cases hlast : (pySplitWS (pyStrip a₀)).getLast? with
    | none => simp [hlast]
    | some tok =>
      simp only [hlast] at hmal ⊢
      cases htok : pyIntHex tok with
      | none => simp [htok]
      | some addr =>
        simp only [htok, Option.isNone_some, Bool.false_or, Bool.and_eq_true,
          Option.isNone_iff_eq_none] at hmal
        obtain ⟨hne, hnone⟩ := hmal
        have hv : pyStrip ((splitOnChar ';' (pyStrip v₀)).headD []) ≠ [] := by
          intro hcontra
          rw [hcontra] at hne
          simp at hne
        simp only [htok]
        rw [if_pos hv, hnone]
  · simp [lstParseLine, hsp]

theorem lstParse_none_of_malformed :
    ∀ (lines : List (List Char)) (m₀ : List (Int × List Int)),
      (∃ line ∈ lines, lstLineMalformed line = true) →
      lines.foldlM lstParseLine m₀ = none := by
  intro lines
  induction lines with
  | nil => rintro m₀ ⟨line, hmem, _⟩; simp at hmem
  | cons l ls ih =>
    rintro m₀ ⟨line, hmem, hbad⟩
    rw [List.foldlM_cons]
    rcases List.mem_cons.mp hmem with rfl | hmem₂
    · rw [lstParseLine_none_of_malformed line hbad m₀]
      rfl
    · cases hline : lstParseLine m₀ l with
      | none => rfl
      | some m₁ =>
        simp only [Bind.bind, Option.bind]
        exact ih m₁ ⟨line, hmem₂, hbad⟩

/-- Claim C10: the listing loader parses the whole input into the `to_write`
dictionary before the first write, so an input containing any malformed line
(one that does not split on `:` into exactly two segments, or whose address
token is missing or not hexadecimal, or whose non-empty value is not
hexadecimal) produces no events and in particular zero memory writes. -/
theorem load_lst_malformed_zero_writes :
    ∀ (data : List Char),
      (∃ line ∈ splitOnChar '\n' (pyStrip data), lstLineMalformed line = true) →
      load_lst data = [] ∧ writesOf (load_lst data) = [] := by
  intro data hbad
  have h : lstParse data = none := lstParse_none_of_malformed _ [] hbad
  simp [load_lst, h, writesOf]

theorem load_lst_malformed_zero_writes_witness :
    load_lst ("4000 : 00AB\nzz : qq".toList) = [] ∧
    writesOf (load_lst ("4000 : 00AB\nzz : qq".toList)) = [] :=
  load_lst_malformed_zero_writes ("4000 : 00AB\nzz : qq".toList) (by decide)

theorem writesOf_write_cons (w : Nat) (a : Int) (v : List Int) (evs : List Ev) :
    writesOf (Ev.write w a v :: evs) = (w, a, v) :: writesOf evs := rfl

theorem writesOf_progress_cons (d t : Nat) (evs : List Ev) :
    writesOf (Ev.progress d t :: evs) = writesOf evs := rfl

theorem progressOf_write_cons (w : Nat) (a : Int) (v : List Int) (evs : List Ev) :
    progressOf (Ev.write w a v :: evs) = progressOf evs := rfl

theorem progressOf_progress_cons (d t : Nat) (evs : List Ev) :
    progressOf (Ev.progress d t :: evs) = (d, t) :: progressOf evs := rfl

theorem writesOf_append (l₁ l₂ : List Ev) :
    writesOf (l₁ ++ l₂) = writesOf l₁ ++ writesOf l₂ := by
  simp [writesOf, List.filterMap_append]

theorem progressOf_append (l₁ l₂ : List Ev) :
    progressOf (l₁ ++ l₂) = progressOf l₁ ++ progressOf l₂ := by
  simp [progressOf, List.filterMap_append]

theorem progressOf_elfSectionTrace :
    ∀ (vs : List Nat) (a n T : Nat),
      progressOf (elfSectionTrace a vs n T) =
        (List.range' (n + 1) vs.length).map fun i => (i, T) := by
  intro vs
  induction vs with
  | nil => intro a n T; rfl
  | cons b bs ih =>
    intro a n T
    simp only [elfSectionTrace, progressOf_write_cons, progressOf_progress_cons,
      List.length_cons, List.range'_succ, List.map_cons]
    exact congrArg _ (ih (a + 1) (n + 1) T)

theorem progressOf_elfWriteTrace :
    ∀ (secs : List (Nat × List Nat)) (T n : Nat),
      progressOf (elfWriteTrace T secs n) =
        (List.range' (n + 1) ((secs.map fun p => p.2.length).sum)).map
          fun i => (i, T) := by
  intro secs
  induction secs with
  | nil => intro T n; rfl
  | cons p rest ih =>
    intro T n
    obtain ⟨a, vs⟩ := p
    show progressOf (elfSectionTrace a vs n T ++ elfWriteTrace T rest (n + vs.length)) = _
    rw [progressOf_append, progressOf_elfSectionTrace, ih, ← List.map_append]
    simp only [List.map_cons, List.sum_cons]
    congr 1
    have hr := List.range'_append (n + 1) vs.length ((rest.map fun p => p.2.length).sum) 1
    simp only [one_mul] at hr
    rw [show n + vs.length + 1 = n + 1 + vs.length from by omega, hr,
      Nat.add_comm ((rest.map fun p => p.2.length).sum) vs.length]

theorem writesOf_elfSectionTrace :
    ∀ (vs : List Nat) (a n T : Nat),
      writesOf (elfSectionTrace a vs n T) =
        ((List.range' a vs.length).zip vs).map
          fun q => ((1 : Nat), (q.1 : Int), [(q.2 : Int)]) := by
  intro vs
  induction vs with
  | nil => intro a n T; rfl
  | cons b bs ih =>
    intro a n T
    simp only [elfSectionTrace, writesOf_write_cons, writesOf_progress_cons,
      List.length_cons, List.range'_succ, List.zip_cons_cons, List.map_cons]
    exact congrArg _ (ih (a + 1) (n + 1) T)

theorem writesOf_elfWriteTrace :
    ∀ (secs : List (Nat × List Nat)) (T n : Nat),
      writesOf (elfWriteTrace T secs n) =
        secs.flatMap fun p =>
          ((List.range' p.1 p.2.length).zip p.2).map
            fun q => ((1 : Nat), (q.1 : Int), [(q.2 : Int)]) := by
  intro secs
  induction secs with
  | nil => intro T n; rfl
  | cons p rest ih =>
    intro T n
    obtain ⟨a, vs⟩ := p
    show writesOf (elfSectionTrace a vs n T ++ elfWriteTrace T rest (n + vs.length)) = _
    rw [writesOf_append, writesOf_elfSectionTrace, ih, List.flatMap_cons]

theorem length_writesOf_elfSectionTrace (vs : List Nat) (a n T : Nat) :
    (writesOf (elfSectionTrace a vs n T)).length = vs.length := by
  rw [writesOf_elfSectionTrace]
  simp [List.length_zip, List.length_range']

theorem length_writesOf_elfWriteTrace :
    ∀ (secs : List (Nat × List Nat)) (T n : Nat),
      (writesOf (elfWriteTrace T secs n)).length =
        (secs.map fun p => p.2.length).sum := by
  intro secs
  induction secs with
  | nil => intro T n; rfl
  | cons p rest ih =>
    intro T n
    obtain ⟨a, vs⟩ := p
    show (writesOf (elfSectionTrace a vs n T ++ elfWriteTrace T rest (n + vs.length))).length = _
    rw [writesOf_append, List.length_append, length_writesOf_elfSectionTrace, ih]
    simp

theorem elfSection_addrs_increasing :
    ∀ (vs : List Nat) (a n T : Nat),
      ((writesOf (elfSectionTrace a vs n T)).map fun t => t.2.1).Pairwise
        (fun x y => x < y) := by
  intro vs
  induction vs with
  | nil => intro a n T; simp [elfSectionTrace, writesOf]
  | cons b bs ih =>
    intro a n T
    simp only [elfSectionTrace, writesOf_write_cons, writesOf_progress_cons,
      List.map_cons]
    refine List.Pairwise.cons ?_ (ih (a + 1) (n + 1) T)
    intro y hy
    rw [writesOf_elfSectionTrace] at hy
    simp only [List.map_map, List.mem_map, Function.comp] at hy
    obtain ⟨q, hq, rfl⟩ := hy
    have h1 : q.1 ∈ List.range' (a + 1) bs.length := (List.of_mem_zip hq).1
    rw [List.mem_range'] at h1
    obtain ⟨i, hi, hqi⟩ := h1
    have ha : a < q.1 := by omega
    exact_mod_cast ha

theorem elfDataSections_foldl :
    ∀ (sections : List ElfSection) (m₀ : List (Nat × List Nat)),
      (m₀.map Prod.fst ++
        (sections.filter fun s => s.sh_type = "SHT_PROGBITS").map
          fun s => s.sh_addr).Nodup →
      sections.foldl
        (fun m s =>
          if s.sh_type = "SHT_PROGBITS" then dictInsert m s.sh_addr s.data else m)
        m₀ =
        m₀ ++ (sections.filter fun s => s.sh_type = "SHT_PROGBITS").map
          fun s => (s.sh_addr, s.data) := by
  intro sections
  induction sections with
  | nil => intro m₀ _; simp
  | cons s ss ih =>
    intro m₀ h
    by_cases hs : s.sh_type = "SHT_PROGBITS"
    · rw [List.filter_cons_of_pos (by simp [hs])] at h
      simp only [List.map_cons] at h
      have hdisj := List.nodup_append.mp h
      have haddr : s.sh_addr ∉ m₀.map Prod.fst := fun hmem =>
        hdisj.2.2 hmem (List.mem_cons_self _ _)
      have hkeys : ((m₀ ++ [(s.sh_addr, s.data)]).map Prod.fst ++
          (ss.filter fun s => s.sh_type = "SHT_PROGBITS").map
            fun s => s.sh_addr).Nodup := by
        rw [List.map_append, List.append_assoc]
        simpa using h
      rw [List.foldl_cons, if_pos hs,
        dictInsert_eq_append m₀ s.sh_addr s.data haddr, ih _ hkeys,
        List.filter_cons_of_pos (by simp [hs]), List.map_cons, List.append_assoc]
      rfl
    · rw [List.foldl_cons, if_neg hs, List.filter_cons_of_neg (by simp [hs])]
      exact ih m₀ (by rwa [List.filter_cons_of_neg (by simp [hs])] at h)

theorem elfDataSections_eq (sections : List ElfSection)
    (h : ((sections.filter fun s => s.sh_type = "SHT_PROGBITS").map
      fun s => s.sh_addr).Nodup) :
    elfDataSections sections =
      (sections.filter fun s => s.sh_type = "SHT_PROGBITS").map
        fun s => (s.sh_addr, s.data) := by
  have h₂ := elfDataSections_foldl sections [] (by simpa using h)
  simpa [elfDataSections] using h₂

/-- Claim C3: the ELF loader writes each `SHT_PROGBITS` section's bytes one at
a time as single-byte words at consecutive addresses from the section base;
the progress total is the total byte count over the extracted sections and
advances by one per byte, in section order then byte order; the addresses
written within a section are strictly increasing; and the two-section 4+6 byte
example yields exactly 10 single-byte writes and progress total 10. -/
theorem load_elf_spec :
    (∀ sections : List ElfSection,
      ((sections.filter fun s => s.sh_type = "SHT_PROGBITS").map
        fun s => s.sh_addr).Nodup →
      writesOf (load_elf sections) =
        ((sections.filter fun s => s.sh_type = "SHT_PROGBITS").map
          fun s => (s.sh_addr, s.data)).flatMap
            (fun p => ((List.range' p.1 p.2.length).zip p.2).map
              fun q => ((1 : Nat), (q.1 : Int), [(q.2 : Int)])) ∧
      (writesOf (load_elf sections)).length =
        ((sections.filter fun s => s.sh_type = "SHT_PROGBITS").map
          fun s => s.data.length).sum ∧
      progressOf (load_elf sections) =
        ((List.range' 1 (((sections.filter fun s => s.sh_type = "SHT_PROGBITS").map
          fun s => s.data.length).sum)).map
            fun i => (i, ((sections.filter fun s => s.sh_type = "SHT_PROGBITS").map
              fun s => s.data.length).sum))) ∧
    (∀ (vs : List Nat) (a n T : Nat),
      ((writesOf (elfSectionTrace a vs n T)).map fun t => t.2.1).Pairwise
        (fun x y => x < y)) ∧
    ((writesOf (load_elf elfExampleSections)).length = 10 ∧
      progressOf (load_elf elfExampleSections) =
        ((List.range' 1 10).map fun i => (i, 10))) := by
  refine ⟨?_, elfSection_addrs_increasing, by decide, by decide⟩
  intro sections hnodup
  have hds := elfDataSections_eq sections hnodup
  refine ⟨?_, ?_, ?_⟩
  · simp only [load_elf]
    rw [writesOf_elfWriteTrace, hds]
  · simp only [load_elf]
    rw [length_writesOf_elfWriteTrace, hds, List.map_map]
    rfl
  · simp only [load_elf]
    rw [progressOf_elfWriteTrace, hds, List.map_map]
    rfl

theorem load_elf_spec_witness :
    writesOf (load_elf elfExampleSections) =
      ((elfExampleSections.filter fun s => s.sh_type = "SHT_PROGBITS").map
        fun s => (s.sh_addr, s.data)).flatMap
          (fun p => ((List.range' p.1 p.2.length).zip p.2).map
            fun q => ((1 : Nat), (q.1 : Int), [(q.2 : Int)])) ∧
    (writesOf (load_elf elfExampleSections)).length =
      ((elfExampleSections.filter fun s => s.sh_type = "SHT_PROGBITS").map
        fun s => s.data.length).sum ∧
    progressOf (load_elf elfExampleSections) =
      ((List.range' 1 (((elfExampleSections.filter
        fun s => s.sh_type = "SHT_PROGBITS").map
          fun s => s.data.length).sum)).map
            fun i => (i, ((elfExampleSections.filter
              fun s => s.sh_type = "SHT_PROGBITS").map
                fun s => s.data.length).sum)) :=
  load_elf_spec.1 elfExampleSections (by decide)

theorem range'_pairs_getLast (T : Nat) (hT : 0 < T) :
    ((List.range' 1 T).map fun i => (i, T)).getLast? = some (T, T) := by
  obtain ⟨k, rfl⟩ : ∃ k, T = k + 1 := ⟨T - 1, by omega⟩
  rw [List.range'_concat, List.map_append]
  simp only [List.map_cons, List.map_nil, List.getLast?_concat]
  simp [Nat.add_comm]

/-- Claim C9: for a successfully parsed listing with n distinct destination
addresses, the progress pairs are exactly (0,n) … (n−1,n), each yielded right
after its corresponding write, and (n,n) never occurs; the ELF loader's
counter instead runs from 1 and its final pair is (total, total). -/
theorem lst_progress_zero_based_elf_one_based :
    (∀ (data : List Char) (m : List (Int × List Int)), lstParse data = some m →
      1 ≤ m.length →
      progressOf (load_lst data) =
        ((List.range m.length).map fun i => (i, m.length)) ∧
      (m.length, m.length) ∉ progressOf (load_lst data) ∧
      load_lst data =
        ((List.enumFrom 0 m).map fun p =>
          [Ev.write 1 p.2.1 p.2.2, Ev.progress p.1 m.length]).flatten) ∧
    (∀ sections : List ElfSection,
      progressOf (load_elf sections) =
        ((List.range' 1 (((elfDataSections sections).map
          fun p => p.2.length).sum)).map
            fun i => (i, ((elfDataSections sections).map
              fun p => p.2.length).sum)) ∧
      (0 < ((elfDataSections sections).map fun p => p.2.length).sum →
        (progressOf (load_elf sections)).getLast? =
          some (((elfDataSections sections).map fun p => p.2.length).sum,
            ((elfDataSections sections).map fun p => p.2.length).sum))) := by
  constructor
  · intro data m h hlen
    refine ⟨?_, ?_, ?_⟩
    · simp only [load_lst, h]
      rw [progressOf_lstTrace m m.length 0, List.range_eq_range']
    · simp only [load_lst, h]
      rw [progressOf_lstTrace m m.length 0]
      intro hmem
      simp only [List.mem_map, List.mem_range'] at hmem
      obtain ⟨x, ⟨i, hi, hx⟩, heq⟩ := hmem
      have : x = m.length := (Prod.mk.injEq _ _ _ _ ▸ heq).1
      omega
    · simp only [load_lst, h]
      exact lstTrace_flatten m m.length 0
  · intro sections
    constructor
    · simp only [load_elf]
      exact progressOf_elfWriteTrace (elfDataSections sections) _ 0
    · intro hpos
      simp only [load_elf]
      rw [progressOf_elfWriteTrace (elfDataSections sections) _ 0]
      exact range'_pairs_getLast _ hpos

theorem lst_progress_zero_based_elf_one_based_witness :
    (progressOf (load_lst ("4000 : 00AB ; comment\n4001 : 00CD\n4002 :  \n".toList)) =
      ((List.range 2).map fun i => (i, 2)) ∧
      (2, 2) ∉ progressOf
        (load_lst ("4000 : 00AB ; comment\n4001 : 00CD\n4002 :  \n".toList)) ∧
      load_lst ("4000 : 00AB ; comment\n4001 : 00CD\n4002 :  \n".toList) =
        ((List.enumFrom 0 [((0x4000 : Int), [(0xAB : Int)]), (0x4001, [0xCD])]).map
          fun p => [Ev.write 1 p.2.1 p.2.2, Ev.progress p.1 2]).flatten) ∧
    (progressOf (load_elf elfExampleSections)).getLast? = some (10, 10) :=
  ⟨lst_progress_zero_based_elf_one_based.1
      ("4000 : 00AB ; comment\n4001 : 00CD\n4002 :  \n".toList)
      [(0x4000, [0xAB]), (0x4001, [0xCD])] (by decide) (by decide),
    (lst_progress_zero_based_elf_one_based.2 elfExampleSections).2 (by decide)⟩

/-- Claim C6: a filename whose lowercased extension has no registered loader
(anything other than `.lst` and `.elf`) makes `load_image_` fail with the
unsupported-format error, leaving the state untouched and issuing zero memory
writes; in particular `image.bin` fails with extension `.bin`. -/
theorem load_image_unsupported :
    (∀ (st : LoaderState) (fname : String)
      (readFile : String → Option (List Char))
      (elfParse : List Char → Option (List ElfSection)),
      pyLower (pySplitextExt fname) ∉ ([".lst", ".elf"] : List String) →
      load_image_ st fname readFile elfParse =
        (st, [], .unsupported (pyLower (pySplitextExt fname)))) ∧
    (∀ (readFile : String → Option (List Char))
      (elfParse : List Char → Option (List ElfSection)),
      load_image_ sampleLoaderState "image.bin" readFile elfParse =
        (sampleLoaderState, [], .unsupported ".bin")) := by
  constructor
  · intro st fname readFile elfParse h
    simp only [load_image_]
    rw [if_neg h]
  · intro readFile elfParse
    have hext : pyLower (pySplitextExt "image.bin") = ".bin" := by decide
    simp only [load_image_, hext]
    rw [if_neg (by decide)]

theorem load_image_unsupported_witness :
    load_image_ sampleLoaderState "image.bin" (fun _ => none) (fun _ => none) =
      (sampleLoaderState, [],
        .unsupported (pyLower (pySplitextExt "image.bin"))) :=
  load_image_unsupported.1 sampleLoaderState "image.bin" (fun _ => none)
    (fun _ => none) (by decide)

/-- Claim C7 counterexample: an invocation of `load_image_` that fails the
extension check — a failing invocation — leaves `image_source` and
`image_symbols` exactly as they were, so they are not cleared on every
invocation. -/
theorem load_image_clears_counterexample :
    (load_image_ sampleLoaderState "image.bin"
      (fun _ => none) (fun _ => none)).1 = sampleLoaderState ∧
    sampleLoaderState.image_source ≠ [] ∧
    sampleLoaderState.image_symbols ≠ [] := by
  refine ⟨by decide, by decide, by decide⟩

/-- Claim C7 (amended): on every invocation whose lowercased extension has a
registered loader, both `image_source` and `image_symbols` are cleared before
the file is read or any loading work happens — including invocations that
subsequently fail (unreadable file, parse error); an invocation that fails
the unsupported-format check clears neither mapping. -/
theorem load_image_clears_on_supported_ext :
    ∀ (st : LoaderState) (fname : String)
      (readFile : String → Option (List Char))
      (elfParse : List Char → Option (List ElfSection)),
      pyLower (pySplitextExt fname) ∈ ([".lst", ".elf"] : List String) →
      (load_image_ st fname readFile elfParse).1.image_source = [] ∧
      (load_image_ st fname readFile elfParse).1.image_symbols = [] := by
  intro st fname readFile elfParse h
  simp only [load_image_]
  rw [if_pos h]
  cases readFile fname with
  | none => exact ⟨rfl, rfl⟩
  | some data =>
    by_cases hl : pyLower (pySplitextExt fname) = ".lst"
    · simp [hl]
    · simp [hl]

theorem load_image_clears_on_supported_ext_witness :
    (load_image_ sampleLoaderState "a.lst"
      (fun _ => none) (fun _ => none)).1.image_source = [] ∧
    (load_image_ sampleLoaderState "a.lst"
      (fun _ => none) (fun _ => none)).1.image_symbols = [] :=
  load_image_clears_on_supported_ext sampleLoaderState "a.lst"
    (fun _ => none) (fun _ => none) (by decide)

theorem sortKey_eq (a : Annotation) (h : a.priority ≤ 255) :
    sortKey a = 256 * a.addr + (255 - a.priority) := by
  unfold sortKey
  rw [Nat.shiftLeft_eq]
  have h255 : 0xFF - a.priority < 2 ^ 8 := by omega
  rw [Nat.mul_comm a.addr (2 ^ 8), ← Nat.mul_add_lt_is_or h255 a.addr]

theorem tooltipEntries_mem {l : List Annotation} {a : Annotation}
    (h : a ∈ tooltipEntries l) : a ∈ l := by
  unfold tooltipEntries at h
  have h₂ : a ∈ List.insertionSort (fun a b => sortKey a ≤ sortKey b) l :=
    (List.take_sublist _ _).subset h
  exact (List.perm_insertionSort _ l).mem_iff.mp h₂

theorem tooltipEntries_sorted (l : List Annotation)
    (h : ∀ a ∈ l, a.priority ≤ 255) :
    (tooltipEntries l).Pairwise
      (fun a b => a.addr < b.addr ∨ (a.addr = b.addr ∧ b.priority ≤ a.priority)) := by
  have hsorted : (List.insertionSort (fun a b => sortKey a ≤ sortKey b) l).Pairwise
      (fun a b => sortKey a ≤ sortKey b) :=
    List.sorted_insertionSort (fun a b => sortKey a ≤ sortKey b) l
  have htake : (tooltipEntries l).Pairwise (fun a b => sortKey a ≤ sortKey b) :=
    List.Pairwise.sublist (List.take_sublist _ _) hsorted
  refine htake.imp_of_mem ?_
  intro a b ha hb hr
  have hpa := h a (tooltipEntries_mem ha)
  have hpb := h b (tooltipEntries_mem hb)
  rw [sortKey_eq a hpa, sortKey_eq b hpb] at hr
  omega

theorem tooltipEntries_length_le (l : List Annotation) :
    (tooltipEntries l).length ≤ MAX_TOOLTIP_ENTRIES :=
  List.length_take_le _ _

/-- Claim C4: when annotations match a queried range, the rendered description
lists them sorted ascending by the composite key (address, 255 − priority) —
address first, then descending priority — renders at most
`MAX_TOOLTIP_ENTRIES = 20` entries, and appends a count of the hidden entries
when more match: 25 matching annotations yield 20 rendered entries plus a
trailing "5 others not shown" count. -/
theorem get_annotation_ordering :
    (∀ (w : Nat) (annotations : List (Nat × List Annotation))
      (addr_start length : Nat),
      (∀ a ∈ matchingAnnotations w annotations addr_start length,
        a.priority ≤ 255) →
      (tooltipEntries (matchingAnnotations w annotations addr_start length)).Pairwise
        (fun a b => a.addr < b.addr ∨ (a.addr = b.addr ∧ b.priority ≤ a.priority))) ∧
    (∀ l : List Annotation, (tooltipEntries l).length ≤ MAX_TOOLTIP_ENTRIES) ∧
    ((matchingAnnotations 8 annotationExample 10 1).length = 25 ∧
      (tooltipEntries (matchingAnnotations 8 annotationExample 10 1)).length = 20 ∧
      get_annotation 8 annotationExample 10 1 =
        ("I", "#FF0000",
          "24\n23\n22\n21\n20\n19\n18\n17\n16\n15\n14\n13\n12\n11\n10\n9\n8\n7\n6\n5\n<i>+ 5 others not shown</i>")) := by
  refine ⟨?_, tooltipEntries_length_le, by decide, by decide, by decide⟩
  intro w annotations addr_start length h
  exact tooltipEntries_sorted _ h

theorem get_annotation_ordering_witness :
    (tooltipEntries (matchingAnnotations 8 annotationExample 10 1)).Pairwise
      (fun a b => a.addr < b.addr ∨ (a.addr = b.addr ∧ b.priority ≤ a.priority)) :=
  get_annotation_ordering.1 8 annotationExample 10 1 (by decide)

theorem accel_ne_zero : SCROLL_ACCELERATION_FACTOR ≠ 0 := by
  unfold SCROLL_ACCELERATION_FACTOR
  norm_num

theorem tickDelta_pos (v : ℝ) : 0 < tickDelta v := by
  unfold tickDelta
  positivity

theorem tickValue_pos {v : ℝ} (h : 0 < v) : 0 < tickValue v := by
  unfold tickValue
  rw [if_pos h.le, one_mul]
  have h1 : (0 : ℝ) < |v| ^ SCROLL_ACCELERATION_FACTOR :=
    Real.rpow_pos_of_pos (abs_pos.mpr h.ne') _
  have h2 : (0 : ℝ) < MAX_SCROLL_SPEED := by unfold MAX_SCROLL_SPEED; norm_num
  exact mul_pos h1 h2

theorem tickValue_neg {v : ℝ} (h : v < 0) : tickValue v < 0 := by
  unfold tickValue
  rw [if_neg (not_le.mpr h)]
  have h1 : (0 : ℝ) < |v| ^ SCROLL_ACCELERATION_FACTOR :=
    Real.rpow_pos_of_pos (abs_pos.mpr h.ne) _
  have h2 : (0 : ℝ) < MAX_SCROLL_SPEED := by unfold MAX_SCROLL_SPEED; norm_num
  have h3 : (-1 : ℝ) * (|v| ^ SCROLL_ACCELERATION_FACTOR) * MAX_SCROLL_SPEED =
      -((|v| ^ SCROLL_ACCELERATION_FACTOR) * MAX_SCROLL_SPEED) := by ring
  rw [h3]
  exact neg_lt_zero.mpr (mul_pos h1 h2)

theorem tickValue_zero : tickValue 0 = 0 := by
  unfold tickValue
  rw [if_pos le_rfl, abs_zero, Real.zero_rpow accel_ne_zero]
  ring

theorem scrollTick_le_of_nonneg (d v : ℝ) (hv : 0 ≤ v) : d ≤ scrollTick d v := by
  unfold scrollTick
  rcases hv.eq_or_lt with h | h
  · rw [← h, tickValue_zero]
    simp
  · rw [if_pos (tickValue_pos h)]
    linarith [tickDelta_pos v]

theorem scrollTick_ge_of_nonpos (d v : ℝ) (hv : v ≤ 0) : scrollTick d v ≤ d := by
  unfold scrollTick
  rcases hv.eq_or_lt with rfl | h
  · rw [tickValue_zero]
    simp
  · rw [if_neg (not_lt.mpr (tickValue_neg h).le), if_pos (tickValue_neg h)]
    linarith [tickDelta_pos v]

theorem foldl_scrollTick_nonneg :
    ∀ (vs : List ℝ) (d₀ : ℝ), 0 ≤ d₀ → (∀ x ∈ vs, 0 ≤ x) →
      0 ≤ vs.foldl scrollTick d₀ := by
  intro vs
  induction vs with
  | nil => intro d₀ h _; simpa using h
  | cons v rest ih =>
    intro d₀ h hall
    rw [List.foldl_cons]
    exact ih _
      (h.trans (scrollTick_le_of_nonneg d₀ v (hall v (List.mem_cons_self _ _))))
      (fun x hx => hall x (List.mem_cons_of_mem _ hx))

theorem foldl_scrollTick_nonpos :
    ∀ (vs : List ℝ) (d₀ : ℝ), d₀ ≤ 0 → (∀ x ∈ vs, x ≤ 0) →
      vs.foldl scrollTick d₀ ≤ 0 := by
  intro vs
  induction vs with
  | nil => intro d₀ h _; simpa using h
  | cons v rest ih =>
    intro d₀ h hall
    rw [List.foldl_cons]
    exact ih _
      ((scrollTick_ge_of_nonpos d₀ v (hall v (List.mem_cons_self _ _))).trans h)
      (fun x hx => hall x (List.mem_cons_of_mem _ hx))

theorem dragDistance_nonneg (vs : List ℝ) (h : ∀ x ∈ vs, 0 ≤ x) :
    0 ≤ dragDistance vs := by
  unfold dragDistance
  exact foldl_scrollTick_nonneg vs 0 le_rfl h

theorem dragDistance_nonpos (vs : List ℝ) (h : ∀ x ∈ vs, x ≤ 0) :
    dragDistance vs ≤ 0 := by
  unfold dragDistance
  exact foldl_scrollTick_nonpos vs 0 le_rfl h

/-- Claim C8: with a fixed drag direction and in particular non-decreasing
deflection magnitude, the accumulated scroll distance is non-decreasing in
magnitude tick over tick; and the single extra tick applied on drag release
moves the displayed address away from `addr_before_scroll` by at least one
non-zero step whenever the deflection is non-zero (the floating-point
arithmetic of the source is idealised over the reals). -/
theorem scroll_acceleration_monotone :
    (∀ (vs : List ℝ) (v : ℝ), (∀ x ∈ vs, 0 ≤ x) → 0 ≤ v →
      |dragDistance vs| ≤ |scrollTick (dragDistance vs) v|) ∧
    (∀ (vs : List ℝ) (v : ℝ), (∀ x ∈ vs, x ≤ 0) → v ≤ 0 →
      |dragDistance vs| ≤ |scrollTick (dragDistance vs) v|) ∧
    (∀ (addr₀ : ℤ) (vs : List ℝ) (v : ℝ), (∀ x ∈ vs, 0 ≤ x) → 0 < v →
      releaseAddr addr₀ vs v ≠ addr₀) ∧
    (∀ (addr₀ : ℤ) (vs : List ℝ) (v : ℝ), (∀ x ∈ vs, x ≤ 0) → v < 0 →
      releaseAddr addr₀ vs v ≠ addr₀) := by
  refine ⟨?_, ?_, ?_, ?_⟩
  · intro vs v hall hv
    have hd : 0 ≤ dragDistance vs := dragDistance_nonneg vs hall
    have hle := scrollTick_le_of_nonneg (dragDistance vs) v hv
    rw [abs_of_nonneg hd, abs_of_nonneg (hd.trans hle)]
    exact hle
  · intro vs v hall hv
    have hd : dragDistance vs ≤ 0 := dragDistance_nonpos vs hall
    have hle := scrollTick_ge_of_nonpos (dragDistance vs) v hv
    rw [abs_of_nonpos hd, abs_of_nonpos (hle.trans hd)]
    linarith
  · intro addr₀ vs v hall hv
    have hd : 0 ≤ dragDistance vs := dragDistance_nonneg vs hall
    have hpos : 0 < scrollTick (dragDistance vs) v := by
      unfold scrollTick
      rw [if_pos (tickValue_pos hv)]
      linarith [tickDelta_pos v]
    unfold releaseAddr roundedDistance
    rw [if_pos hpos.le, one_mul, abs_of_nonneg hpos.le]
    have hceil : 0 < ⌈scrollTick (dragDistance vs) v⌉ := Int.ceil_pos.mpr hpos
    omega
  · intro addr₀ vs v hall hv
    have hd : dragDistance vs ≤ 0 := dragDistance_nonpos vs hall
    have hneg : scrollTick (dragDistance vs) v < 0 := by
      unfold scrollTick
      rw [if_neg (not_lt.mpr (tickValue_neg hv).le), if_pos (tickValue_neg hv)]
      linarith [tickDelta_pos v]
    unfold releaseAddr roundedDistance
    rw [if_neg (not_le.mpr hneg), abs_of_neg hneg]
    have hceil : 0 < ⌈-scrollTick (dragDistance vs) v⌉ :=
      Int.ceil_pos.mpr (by linarith)
    omega

theorem scroll_acceleration_monotone_witness :
    |dragDistance []| ≤ |scrollTick (dragDistance []) 1| ∧
    releaseAddr 0 [] 1 ≠ 0 :=
  ⟨scroll_acceleration_monotone.1 [] 1 (by simp) zero_le_one,
    scroll_acceleration_monotone.2.2.1 0 [] 1 (by simp) one_pos⟩
